import Mathlib

/-!
Verification of the kas include-resolution / merge engine and the lockfile
reconciliation algorithm, shallowly embedded from

  * src/kas/includehandler.py  (ConfigFile, IncludeHandler)
  * src/kas/plugins/lock.py    (Lock._update_lockfile)

Parsed JSON/YAML documents are modelled by the inductive `Value`; the
filesystem is a partial map from path strings to already-parsed values
(reading+parsing is collapsed into one lookup, so byte-level parse errors are
outside the model).  Python exceptions are modelled by `PyError`; an
exception that kas does not raise deliberately and does not catch
(KeyError, TypeError, AttributeError on shapes the JSON schema would have
rejected) is collapsed into the single constructor `PyError.uncaught`.
-/

set_option autoImplicit false

namespace Kas

/-- A parsed JSON/YAML value (floating-point scalars are not modelled; the
configuration files the tool handles use string/int/bool/null scalars). -/
inductive Value where
  | str : String → Value
  | int : Int → Value
  | bool : Bool → Value
  | null : Value
  | list : List Value → Value
  | map : List (String × Value) → Value

/-- First-match lookup in an association list, i.e. `dict.get(key)` for the
(duplicate-free) dictionaries produced by the YAML/JSON parsers. -/
def lookupV : List (String × Value) → String → Option Value
  | [], _ => none
  | (k, v) :: r, key => if k = key then some v else lookupV r key

/-- `d[k] = v` on an (ordered) dictionary: an existing key keeps its
position, a new key is appended at the end. -/
def odSet : List (String × Value) → String → Value → List (String × Value)
  | [], k, v => [(k, v)]
  | (k1, v1) :: r, k, v =>
    if k1 = k then (k1, v) :: r else (k1, v1) :: odSet r k v

/-- Well-formedness of a parsed value: every mapping in the tree has
pairwise-distinct keys (always true of values produced by the parsers). -/
def Value.wf : Value → Bool
  | .str _ => true
  | .int _ => true
  | .bool _ => true
  | .null => true
  | .list [] => true
  | .list (v :: r) => v.wf && Value.wf (.list r)
  | .map [] => true
  | .map ((k, v) :: r) =>
    !(r.any (fun p => p.1 = k)) && v.wf && Value.wf (.map r)

/-- Python truthiness of a parsed value (`if current_config.src_dir:`). -/
def Value.truthy : Value → Bool
  | .str s => s ≠ ""
  | .int n => n ≠ 0
  | .bool b => b
  | .null => false
  | .list l => !l.isEmpty
  | .map m => !m.isEmpty

/-- The raised-exception model.  `loadConfig` is `LoadConfigException`,
`includeError` is `IncludeException`, `fileNotFound` is the builtin
`FileNotFoundError` raised by `open`, `unboundLocal` is the builtin
`UnboundLocalError` (a local variable read before assignment), and
`uncaught` stands for any other builtin exception kas neither raises
deliberately nor catches (KeyError/TypeError/AttributeError on shapes the
config schema would reject).  `fuelExhausted` is an artifact of the
embedding: the source recursion is unbounded (no cycle detection), so the
Lean model carries explicit fuel. -/
inductive PyError where
  | loadConfig : PyError
  | includeError : PyError
  | fileNotFound : PyError
  | unboundLocal : PyError
  | uncaught : PyError
  | fuelExhausted : PyError
deriving DecidableEq

end Kas

namespace Kas

/-! ### Path string helpers (POSIX semantics of `os.path` / `pathlib`) -/

/-- Index of the last occurrence of `c` in `cs`. -/
def lastIdxOf (cs : List Char) (c : Char) : Option Nat :=
  match cs.reverse.findIdx? (fun x => x = c) with
  | none => none
  | some j => some (cs.length - 1 - j)

/-- Whether the first character of `s` is `c`. -/
def headIs (c : Char) (s : String) : Bool :=
  match s.toList with
  | [] => false
  | x :: _ => x = c

/-- Whether the last character of `s` is `c`. -/
def lastIs (c : Char) (s : String) : Bool :=
  match s.toList.getLast? with
  | some x => x = c
  | none => false

/-- Split a character list at every occurrence of `c` (like
`str.split(c)`: `n` separators produce `n + 1` pieces). -/
def splitOnChar (c : Char) : List Char → List String
  | [] => [""]
  | x :: r =>
    match splitOnChar c r with
    | [] => [""]
    | h :: t =>
      if x = c then "" :: h :: t
      else (String.mk [x] ++ h) :: t

/-- `os.path.basename`: everything after the last slash. -/
def basename (p : String) : String :=
  String.mk ((p.toList.reverse.takeWhile (fun ch => ch ≠ '/')).reverse)

/-- `os.path.dirname`: head of the split at the last slash, with trailing
slashes stripped unless the head consists only of slashes. -/
def dirname (p : String) : String :=
  let cs := p.toList
  match lastIdxOf cs '/' with
  | none => ""
  | some i =>
    let head := cs.take (i + 1)
    let stripped := (head.reverse.dropWhile (fun ch => ch = '/')).reverse
    if stripped.isEmpty then String.mk head else String.mk stripped

/-- `os.path.join` for two components: an absolute second component
replaces the first. -/
def osPathJoin (a b : String) : String :=
  if headIs '/' b then b
  else if a = "" || lastIs '/' a then a ++ b
  else a ++ "/" ++ b

/-- Component loop of `os.path.normpath` ('' and '.' are dropped, '..'
cancels the previous component; at the root of an absolute path '..' is
dropped). -/
def normAux (isAbs : Bool) : List String → List String → List String
  | acc, [] => acc.reverse
  | acc, c :: rest =>
    if c = "" || c = "." then normAux isAbs acc rest
    else if c = ".." then
      match acc with
      | [] => if isAbs then normAux isAbs [] rest else normAux isAbs [".."] rest
      | a :: tl =>
        if a = ".." then normAux isAbs (c :: acc) rest else normAux isAbs tl rest
    else normAux isAbs (c :: acc) rest

/-- `os.path.normpath` (the POSIX two-leading-slash corner case is not
modelled). -/
def normpath (p : String) : String :=
  if p = "" then "." else
  let isAbs := headIs '/' p
  let outs := normAux isAbs [] (splitOnChar '/' p.toList)
  if isAbs then "/" ++ String.intercalate "/" outs
  else if outs.isEmpty then "." else String.intercalate "/" outs

/-- `os.path.abspath` = `normpath(join(cwd, p))`. -/
def abspath (cwd p : String) : String := normpath (osPathJoin cwd p)

/-- Extension part of `os.path.splitext`: the last dot of the basename
starts the extension only if the basename has a non-dot character before
it. -/
def splitextExt (p : String) : String :=
  let cs := (basename p).toList
  match lastIdxOf cs '.' with
  | none => ""
  | some di =>
    if (cs.take di).any (fun ch => ch ≠ '.') then String.mk (cs.drop di) else ""

/-- `pathlib.PurePath.suffix` of a file name: `name[i:]` for the last dot
index `i` when `0 < i < len(name) - 1`, else empty. -/
def pathSuffix (b : String) : String :=
  let cs := b.toList
  match lastIdxOf cs '.' with
  | none => ""
  | some i =>
    if 0 < i && i < cs.length - 1 then String.mk (cs.drop i) else ""

/-- `pathlib.PurePath.parent` (empty dirname is the current directory). -/
def pathParent (p : String) : String :=
  let d := dirname p
  if d = "" then "." else d

/-- `pathlib` `parent / name`. -/
def joinPath (par nm : String) : String :=
  if par = "." then nm
  else if lastIs '/' par then par ++ nm
  else par ++ "/" ++ nm

/-- `IncludeHandler.get_lockfile`:
`file.parent / (file.stem + '.lock' + file.suffix)`. -/
def lockfileName (f : String) : String :=
  let b := basename f
  let suf := pathSuffix b
  let stem := String.mk (b.toList.take (b.toList.length - suf.toList.length))
  joinPath (pathParent f) (stem ++ ".lock" ++ suf)

end Kas

namespace Kas

/-! ### Document loading (`ConfigFile._load_config`) -/

/-- A hashable Python value that can appear as `include.get('repo', None)`
and hence inside the missing-repos list. -/
inductive PyKey where
  | none : PyKey
  | str : String → PyKey
  | int : Int → PyKey
  | bool : Bool → PyKey
deriving DecidableEq

/-- Result of Python `int(s)` on a string: optional surrounding spaces,
optional sign, then a non-empty digit run (digit-group underscores are not
modelled).  `none` is a `ValueError`. -/
def pyIntOfString (s : String) : Option Int :=
  let cs := (s.toList.dropWhile (fun c => c = ' ')).reverse.dropWhile
    (fun c => c = ' ') |>.reverse
  let (sign, digits) :=
    match cs with
    | '-' :: r => ((-1 : Int), r)
    | '+' :: r => ((1 : Int), r)
    | r => ((1 : Int), r)
  if digits.isEmpty || !digits.all (fun c => c.isDigit) then none
  else some (sign * (digits.foldl (fun a c => a * 10 + (c.toNat - '0'.toNat)) 0 : Nat))

/-- The two builtin exceptions `int(...)` can raise. -/
inductive PyIntErr where
  | valueError : PyIntErr
  | typeError : PyIntErr
deriving DecidableEq

/-- Python `int(v)` on a parsed scalar (`bool` is an `int` subclass). -/
def intOfValue : Value → Except PyIntErr Int
  | .int n => .ok n
  | .bool b => .ok (if b then 1 else 0)
  | .str s =>
    match pyIntOfString s with
    | some n => .ok n
    | none => .error .valueError
  | _ => .error .typeError

/-- `int(self.config['header']['version'])` with the surrounding
`except ValueError: version_value = 1` (a `KeyError`/`TypeError` on a shape
the schema would reject is uncaught). -/
def extractVersion (config : Value) : Except PyError Int :=
  match config with
  | .map m =>
    match lookupV m "header" with
    | some (.map hm) =>
      match lookupV hm "version" with
      | some v =>
        match intOfValue v with
        | .ok n => .ok n
        | .error .valueError => .ok 1
        | .error .typeError => .error .uncaught
      | none => .error .uncaught
    | some _ => .error .uncaught
    | none => .error .uncaught
  | _ => .error .uncaught

/-- The collaborators `ConfigFile` reads: the filesystem (existence and
parsed content in one lookup), the schema validator (abstract: the schema
object lives outside src/), the file-version window
`[__compatible_file_version__, __file_version__]` (the constants live in
`kas/__init__.py`, outside src/, so they are parameters here), and the
process working directory used by `os.path.abspath`. -/
structure Env where
  fs : String → Option Value
  validate : Value → Bool
  compatMin : Int
  fileVer : Int
  cwd : String

/-- The in-memory `ConfigFile` object. -/
structure ConfigFile where
  filename : String
  config : Value
  src_dir : Option Value
  is_lockfile : Bool
  is_external : Bool

/-- `ConfigFile.__init__` / `ConfigFile._load_config`: extension dispatch,
read+parse, schema validation, version window check, `_source_dir`
extraction (the non-fatal `proxy_config` warning is logging only). -/
def mkConfigFile (env : Env) (filename : String)
    (is_lockfile is_external : Bool) : Except PyError ConfigFile :=
  if splitextExt filename = ".json" || splitextExt filename = ".yml"
      || splitextExt filename = ".yaml" then
    match env.fs filename with
    | none => .error .fileNotFound
    | some config =>
      if env.validate config then
        match extractVersion config with
        | .error e => .error e
        | .ok v =>
          if v < env.compatMin || v > env.fileVer then .error .loadConfig
          else
            match config with
            | .map m =>
              .ok ⟨filename, config, lookupV m "_source_dir",
                   is_lockfile, is_external⟩
            | _ =>
              -- `self.config.get('proxy_config')` on a non-mapping:
              -- AttributeError (never reached: extractVersion already
              -- requires a mapping)
              .error .uncaught
      else .error .loadConfig
  else .error .loadConfig

end Kas

example : Kas.lockfileName "/r/t.yml" = "/r/t.lock.yml" := rfl
example : Kas.lockfileName "/r/t.lock.yml" = "/r/t.lock.lock.yml" := rfl
example : Kas.lockfileName "a.yml" = "a.lock.yml" := rfl
example : Kas.abspath "/" "/repo/b.yml" = "/repo/b.yml" := rfl
example : Kas.abspath "/" (Kas.osPathJoin "/repo" "b.yml") = "/repo/b.yml" := rfl
example : Kas.splitextExt "/r/a.yml" = ".yml" := rfl
example : Kas.splitextExt "/r/a.txt" = ".txt" := rfl
example : Kas.dirname "/r/a.yml" = "/r" := rfl
example : Kas.pyIntOfString "0.10" = none := rfl
example : Kas.pyIntOfString " -42 " = some (-42) := rfl

namespace Kas

/-! ### Deep merge (`_internal_dict_merge`) -/

/-- The `for k in upd: dest[k] = upd[k]` loop taken when the key sets do
not intersect (the `try`/`except AttributeError` bodies are identical). -/
def setAll (d : List (String × Value)) : List (String × Value) → List (String × Value)
  | [] => d
  | (k, v) :: rest => setAll (odSet d k v) rest

mutual

/-- `_internal_dict_merge(dest, upd)`: raises `IncludeException` unless
both arguments are mappings, otherwise merges `upd` into a copy of
`dest`. -/
def dictMerge : Value → Value → Except PyError Value
  | .map d, .map u => .ok (.map (mergeMaps d u))
  | _, _ => .error .includeError

/-- The mapping/mapping case of `_internal_dict_merge`: if the key sets
intersect, walk `upd` key by key, else plain-assign every key. -/
def mergeMaps (d u : List (String × Value)) : List (String × Value) :=
  if d.any (fun p => u.any (fun q => q.1 = p.1)) then mergeInto d u
  else setAll d u
termination_by sizeOf u + 1

/-- The `for key in updkeys` loop: a key whose value
(`dest_subkey = dest.get(key, None)`) is a mapping on both sides is merged
recursively (the recursive call is `_internal_dict_merge(dest_subkey, val)`,
which takes the mapping/mapping path), any other key is overwritten with
the incoming value. -/
def mergeInto (d : List (String × Value)) : List (String × Value) → List (String × Value)
  | [] => d
  | (k, v) :: rest =>
    match lookupV d k, v with
    | some (.map dd), .map uu => mergeInto (odSet d k (.map (mergeMaps dd uu))) rest
    | _, _ => mergeInto (odSet d k v) rest
termination_by l => sizeOf l

end

/-- `functools.reduce(_internal_dict_merge, bodies)` with `acc` as the
running accumulator. -/
def mergeAll (acc : Value) : List Value → Except PyError Value
  | [] => .ok acc
  | v :: r =>
    match dictMerge acc v with
    | .ok m => mergeAll m r
    | .error e => .error e

end Kas

namespace Kas

/-! ### Include resolution (`_internal_include_handler` / `get_config`) -/

/-- Result of one `_internal_include_handler` call: the ordered documents,
the missing-repos accumulator, and the (possibly updated) value of the
mutable `self.top_repo_path`. -/
abbrev VisitOut := List ConfigFile × List PyKey × String

/-- `include.get('repo', None)` followed by `repos.get(includerepo, None)`:
the stored value as a hashable Python key.  An unhashable value (list or
dict) makes `repos.get` raise `TypeError`. -/
def repoKeyOf (m : List (String × Value)) : Except PyError PyKey :=
  match lookupV m "repo" with
  | none => .ok .none
  | some (.str s) => .ok (.str s)
  | some (.int n) => .ok (.int n)
  | some (.bool b) => .ok (.bool b)
  | some .null => .ok .none
  | some (.list _) => .error .uncaught
  | some (.map _) => .error .uncaught

/-- Lookup of a repo key in the known-repos dictionary (whose keys are the
string repo names, so only a string key can hit). -/
def repoDir (repos : String → Option String) : PyKey → Option String
  | .str s => repos s
  | _ => none

/-- `header = config.get('header', {})` and
`for include in header.get('includes', [])`: the list Python would iterate
(iterating a string yields its characters, iterating a dict its keys; a
non-iterable include value is an uncaught `TypeError`). -/
def includesOf (config : Value) : Except PyError (List Value) :=
  match config with
  | .map m =>
    match (lookupV m "header").getD (.map []) with
    | .map hm =>
      match (lookupV hm "includes").getD (.list []) with
      | .list l => .ok l
      | .str s => .ok (s.toList.map (fun ch => .str (String.mk [ch])))
      | .map mm => .ok (mm.map (fun p => .str p.1))
      | _ => .error .uncaught
    | _ => .error .uncaught
  | _ => .error .uncaught

/-- `if current_config.src_dir:` — a truthy `_source_dir` replaces both the
local `repo_path` and the handler's `top_repo_path`.  A truthy non-string
value is modelled as an uncaught error (Python would only fail later, on
`os.path.join`). -/
def srcDirUpdate (c : ConfigFile) (repo_path trp : String) :
    Except PyError (String × String) :=
  match c.src_dir with
  | none => .ok (repo_path, trp)
  | some v =>
    if v.truthy then
      match v with
      | .str s => .ok (s, s)
      | _ => .error .uncaught
    else .ok (repo_path, trp)

/-- `OrderedDict.fromkeys(missing_repos)`: first-seen-order
deduplication. -/
def dedupAcc (seen : List PyKey) : List PyKey → List PyKey
  | [] => []
  | x :: r =>
    if x ∈ seen then dedupAcc seen r else x :: dedupAcc (seen ++ [x]) r

/-- `list(OrderedDict.fromkeys(missing_repos))`. -/
def dedupFirst (l : List PyKey) : List PyKey := dedupAcc [] l

/-- Body of the `for include in ...` loop for one include entry.  `recurse`
is the recursive `_internal_include_handler` call (the model's fuel already
applied).  An entry that is neither a string nor a mapping is silently
skipped by the source. -/
def processOne (recurse : String → String → String → Bool → Bool → Except PyError VisitOut)
    (env : Env) (repos : String → Option String) (curFile : String)
    (repo_path : String) (is_external : Bool) (trp : String) (inc : Value) :
    Except PyError VisitOut :=
  match inc with
  | .str s =>
    -- `os.path.pathsep` is ':' on POSIX (the source tests the *path list*
    -- separator, not os.sep)
    let includefile :=
      if headIs ':' s then s
      else
        let cand := abspath env.cwd (osPathJoin repo_path s)
        if (env.fs cand).isSome then cand
        else
          let alt := abspath env.cwd (osPathJoin (dirname curFile) s)
          if (env.fs alt).isSome then alt else cand
    recurse includefile repo_path trp false is_external
  | .map m =>
    match repoKeyOf m with
    | .error e => .error e
    | .ok key =>
      match repoDir repos key with
      | some dir =>
        match lookupV m "file" with
        | none => .error .includeError
        | some (.str f) =>
          let absdir := abspath env.cwd dir
          recurse (osPathJoin absdir f) absdir trp false true
        | some _ => .error .uncaught
      | none => .ok ([], [key], trp)
  | _ => .ok ([], [], trp)

/-- The `for include in header.get('includes', [])` loop: entries are
processed left to right, their documents and missing repos appended in
order, the mutable `self.top_repo_path` threaded through. -/
def processIncludes (recurse : String → String → String → Bool → Bool → Except PyError VisitOut)
    (env : Env) (repos : String → Option String) (curFile : String)
    (repo_path : String) (is_external : Bool) :
    String → List Value → Except PyError VisitOut
  | trp, [] => .ok ([], [], trp)
  | trp, inc :: rest =>
    match processOne recurse env repos curFile repo_path is_external trp inc with
    | .error e => .error e
    | .ok (cfgs, miss, trp1) =>
      match processIncludes recurse env repos curFile repo_path is_external trp1 rest with
      | .error e => .error e
      | .ok (cfgs2, miss2, trp2) => .ok (cfgs ++ cfgs2, miss ++ miss2, trp2)

/-- `_internal_include_handler(filename, repo_path, is_lockfile,
is_external)`.  The extra `trp` argument is the mutable
`self.top_repo_path`, threaded through; `fuel` bounds the (unbounded)
source recursion. -/
def visit (env : Env) (repos : String → Option String) (useLock : Bool) :
    Nat → String → String → String → Bool → Bool → Except PyError VisitOut
  | 0, _, _, _, _, _ => .error .fuelExhausted
  | fuel + 1, filename, repo_path, trp, is_lockfile, is_external =>
    match mkConfigFile env filename is_lockfile is_external with
    | .error .fileNotFound =>
      -- the `except FileNotFoundError:` handler re-raises as
      -- `LoadConfigException(..., current_config.filename)`, but
      -- `current_config` was never assigned (the constructor raised), so
      -- Python raises UnboundLocalError instead
      .error .unboundLocal
    | .error e => .error e
    | .ok current =>
      match (if useLock && (env.fs (lockfileName filename)).isSome then
               visit env repos useLock fuel (lockfileName filename)
                 repo_path trp true is_external
             else .ok ([], [], trp)) with
      | .error e => .error e
      | .ok (lockCfgs, lockMiss, trp1) =>
        match srcDirUpdate current repo_path trp1 with
        | .error e => .error e
        | .ok (repo_path2, trp2) =>
          match current.config with
          | .map _ =>
            match includesOf current.config with
            | .error e => .error e
            | .ok incs =>
              match processIncludes (visit env repos useLock fuel) env repos
                  current.filename repo_path2 is_external trp2 incs with
              | .error e => .error e
              | .ok (cfgs, miss, trp3) =>
                .ok (lockCfgs ++ cfgs ++ [current],
                     dedupFirst (lockMiss ++ miss), trp3)
          | _ => .error .includeError

/-- The resolver's construction-time state (`IncludeHandler.__init__`). -/
structure IncludeHandler where
  top_files : List String
  top_repo_path : String
  use_lock : Bool

/-- `if repo not in missing_repos: missing_repos.append(repo)` folded over
one visit's missing list. -/
def mergeMissing (acc : List PyKey) : List PyKey → List PyKey
  | [] => acc
  | x :: r => if x ∈ acc then mergeMissing acc r else mergeMissing (acc ++ [x]) r

/-- The `for configfile in self.top_files` loop of `get_config` (each
iteration reads the current, possibly updated, `self.top_repo_path`). -/
def getDocsLoop (env : Env) (repos : String → Option String) (useLock : Bool)
    (fuel : Nat) :
    List String → List ConfigFile → List PyKey → String → Except PyError VisitOut
  | [], cfgs, missing, trp => .ok (cfgs, missing, trp)
  | f :: rest, cfgs, missing, trp =>
    match visit env repos useLock fuel f trp trp false false with
    | .error e => .error e
    | .ok (c, m, trp1) =>
      getDocsLoop env repos useLock fuel rest (cfgs ++ c) (mergeMissing missing m) trp1

/-- The document-collection part of `IncludeHandler.get_config` (everything
before the merge fold). -/
def getConfigDocs (env : Env) (repos : String → Option String)
    (h : IncludeHandler) (fuel : Nat) : Except PyError VisitOut :=
  getDocsLoop env repos h.use_lock fuel h.top_files [] [] h.top_repo_path

/-- `IncludeHandler.get_config`: collect documents, then
`functools.reduce(_internal_dict_merge, map(lambda x: x.config, configs))`
(`reduce` over an empty sequence raises `TypeError`). -/
def get_config (env : Env) (repos : String → Option String)
    (h : IncludeHandler) (fuel : Nat) : Except PyError (Value × List PyKey) :=
  match getConfigDocs env repos h fuel with
  | .error e => .error e
  | .ok (cfgs, missing, _) =>
    match cfgs with
    | [] => .error .uncaught
    | c :: rest =>
      match mergeAll c.config (rest.map (fun x => x.config)) with
      | .ok m => .ok (m, missing)
      | .error e => .error e

end Kas

namespace Kas

/-! ### Lock reconciliation (`Lock._update_lockfile`, src/kas/plugins/lock.py) -/

/-- The slice of a repository object the reconciliation reads. -/
structure Repo where
  name : String
  revision : String
deriving DecidableEq

/-- The inner `for rk, r in repos_to_lock` loop for one lock entry
`(k, commit)`.  `repos_to_lock.remove((rk, r))` removes the current
element, so Python's list iterator then skips the element that slides into
its slot (modelled by keeping `skipped` unprocessed).  Returns the
entry's final commit, whether it changed, and the remaining
`repos_to_lock`. -/
def updateEntry (external : Bool) (k : String) :
    String → List (String × Repo) → String × Bool × List (String × Repo)
  | commit, [] => (commit, false, [])
  | commit, (rk, r) :: rest =>
    if rk = k then
      let cc : String × Bool :=
        if commit = r.revision then (commit, false)
        else if !external then (r.revision, true)
        else (commit, false)
      match rest with
      | [] => (cc.1, cc.2, [])
      | skipped :: rest2 =>
        let t := updateEntry external k cc.1 rest2
        (t.1, cc.2 || t.2.1, skipped :: t.2.2)
    else
      let t := updateEntry external k commit rest
      (t.1, t.2.1, (rk, r) :: t.2.2)

/-- `Lock._update_lockfile`: the outer loop over
`lockfile_config['overrides']['repos'].items()`.  `external` is the
`Lock._is_external_lockfile` classification of this lock document.
Returns the updated entries, the `changed` flag (when true the file is
re-serialized by `Dump.dump_config`), and the remaining
`repos_to_lock`. -/
def update_lockfile (external : Bool) :
    List (String × String) → List (String × Repo) →
    List (String × String) × Bool × List (String × Repo)
  | [], repos => ([], false, repos)
  | (k, commit) :: rest, repos =>
    let t := updateEntry external k commit repos
    let t2 := update_lockfile external rest t.2.2
    ((k, t.1) :: t2.1, t.2.1 || t2.2.1, t2.2.2)

/-- First-match lookup in the lock-entry list. -/
def lookupStr : List (String × String) → String → Option String
  | [], _ => none
  | (k, v) :: r, key => if k = key then some v else lookupStr r key

end Kas

namespace Kas

/-! ### Heap model of `_internal_dict_merge` (mutation discipline)

The pure `dictMerge` above cannot express the frame property ("inputs are
never mutated"), so the same source function is embedded a second time over
an explicit heap: every Python dict is a heap object addressed by a `Nat`,
`dest = OrderedDict(dest)` is an allocation of a fresh shallow copy, and
every `dest[key] = ...` statement is a write to that fresh address. -/

/-- A value stored in a dictionary slot: either a pointer to another
dictionary object, or an immutable non-dict value. -/
inductive HVal where
  | ref : Nat → HVal
  | prim : Value → HVal

/-- The heap: object contents per address, plus the next fresh address. -/
structure Heap where
  data : Nat → List (String × HVal)
  next : Nat

/-- Overwrite the contents of an (existing) object. -/
def Heap.write (h : Heap) (a : Nat) (l : List (String × HVal)) : Heap :=
  ⟨fun x => if x = a then l else h.data x, h.next⟩

/-- Allocate a new object with contents `l`. -/
def Heap.alloc (h : Heap) (l : List (String × HVal)) : Heap × Nat :=
  (⟨fun x => if x = h.next then l else h.data x, h.next + 1⟩, h.next)

/-- First-match lookup in a heap dict. -/
def lookupH : List (String × HVal) → String → Option HVal
  | [], _ => none
  | (k, v) :: r, key => if k = key then some v else lookupH r key

/-- `d[k] = v` on a heap dict (same ordered-dict semantics as `odSet`). -/
def odSetH : List (String × HVal) → String → HVal → List (String × HVal)
  | [], k, v => [(k, v)]
  | (k1, v1) :: r, k, v =>
    if k1 = k then (k1, v) :: r else (k1, v1) :: odSetH r k v

/-- The `for key in updkeys` loop of `_internal_dict_merge` (intersecting
key sets): all writes go to the freshly allocated copy `fresh`; a
dict/dict pair is merged by the recursive call `recur`. -/
def hMergeEntries (recur : Heap → Nat → Nat → Heap × Nat) (fresh : Nat) :
    Heap → List (String × HVal) → Heap
  | h, [] => h
  | h, (k, v) :: rest =>
    let h2 :=
      match lookupH (h.data fresh) k, v with
      | some (.ref da), .ref ua =>
        let t := recur h da ua
        t.1.write fresh (odSetH (t.1.data fresh) k (.ref t.2))
      | _, _ => h.write fresh (odSetH (h.data fresh) k v)
    hMergeEntries recur fresh h2 rest

/-- The `for k in upd: dest[k] = upd[k]` loop (disjoint key sets). -/
def hSetEntries (fresh : Nat) : Heap → List (String × HVal) → Heap
  | h, [] => h
  | h, (k, v) :: rest =>
    hSetEntries fresh (h.write fresh (odSetH (h.data fresh) k v)) rest

/-- Heap-level `_internal_dict_merge(dest, upd)`: allocate a fresh shallow
copy of `dest` (`dest = OrderedDict(dest)`), then update it key by key.
Returns the heap and the address of the result.  Fuel bounds the recursion
(Python dicts can be cyclic); at fuel 0 the heap is returned untouched. -/
def hMerge : Nat → Heap → Nat → Nat → Heap × Nat
  | 0, h, _, _ => (h, 0)
  | fuel + 1, h, dest, upd =>
    let t := h.alloc (h.data dest)
    let h1 := t.1
    let fresh := t.2
    let uEnt := h1.data upd
    let h2 :=
      if (h1.data fresh).any (fun p => uEnt.any (fun q => q.1 = p.1)) then
        hMergeEntries (hMerge fuel) fresh h1 uEnt
      else
        hSetEntries fresh h1 uEnt
    (h2, fresh)

/-- Read a value tree back off the heap (partial: `none` when `fuel` is too
small for the depth). -/
def mapEntries (f : HVal → Option Value) :
    List (String × HVal) → Option (List (String × Value))
  | [] => some []
  | (k, v) :: r =>
    match f v, mapEntries f r with
    | some w, some ws => some ((k, w) :: ws)
    | _, _ => none

/-- Structural read-back of a heap value. -/
def readback (h : Heap) : Nat → HVal → Option Value
  | 0, _ => none
  | _ + 1, .prim v => some v
  | fuel + 1, .ref a =>
    match mapEntries (readback h fuel) (h.data a) with
    | some es => some (.map es)
    | none => none

/-- Boolean fold of a predicate over the values of a heap dict. -/
def allEntries (f : HVal → Bool) : List (String × HVal) → Bool
  | [] => true
  | (_, v) :: r => f v && allEntries f r

/-- All addresses reachable from `v` (to depth `fuel`) are below `n`. -/
def hvalBounded (h : Heap) (n : Nat) : Nat → HVal → Bool
  | 0, _ => true
  | _ + 1, .prim _ => true
  | fuel + 1, .ref a =>
    decide (a < n) && allEntries (hvalBounded h n fuel) (h.data a)

end Kas

namespace Kas

/-! ### Helper lemmas -/

/-- A successfully constructed `ConfigFile` records the requested
filename. -/
theorem mkConfigFile_filename (env : Env) (f : String) (lk ex : Bool)
    (c : ConfigFile) (h : mkConfigFile env f lk ex = .ok c) : c.filename = f := by
  unfold mkConfigFile at h
  repeat' split at h
  all_goals try exact Except.noConfusion h
  injection h with h2
  subst h2
  rfl

/-- `_internal_include_handler` appends the current document after all
documents produced by its lockfile and includes: the document of the
visited file is always the last element of the returned list. -/
theorem visit_ok_getLast (env : Env) (repos : String → Option String)
    (useLock : Bool) (fuel : Nat) (f rp trp : String) (lk ex : Bool)
    (out : VisitOut) (h : visit env repos useLock fuel f rp trp lk ex = .ok out) :
    ∃ c : ConfigFile, out.1.getLast? = some c ∧ c.filename = f := by
  cases fuel with
  | zero => simp [visit] at h
  | succ fuel =>
    unfold visit at h
    split at h <;> try exact Except.noConfusion h
    rename_i current heq
    repeat' split at h
    all_goals try exact Except.noConfusion h
    injection h with h2
    subst h2
    refine ⟨current, ?_, mkConfigFile_filename env f lk ex current heq⟩
    simp

/-- The `if repo not in missing_repos: append` fold preserves freedom from
duplicates. -/
theorem mergeMissing_nodup : ∀ (m acc : List PyKey), acc.Nodup →
    (mergeMissing acc m).Nodup := by
  intro m
  induction m with
  | nil => intro acc h; exact h
  | cons x r ih =>
    intro acc h
    unfold mergeMissing
    split
    · exact ih acc h
    · rename_i hx
      refine ih (acc ++ [x]) ?_
      simp [List.nodup_append, h, hx]

/-- The missing-repos accumulator of the top-files loop never acquires a
duplicate. -/
theorem getDocsLoop_nodup (env : Env) (repos : String → Option String)
    (useLock : Bool) (fuel : Nat) :
    ∀ (files : List String) (cfgs : List ConfigFile) (missing : List PyKey)
      (trp : String) (out : VisitOut), missing.Nodup →
      getDocsLoop env repos useLock fuel files cfgs missing trp = .ok out →
      out.2.1.Nodup := by
  intro files
  induction files with
  | nil =>
    intro cfgs missing trp out hn h
    injection h with h2
    subst h2
    exact hn
  | cons f rest ih =>
    intro cfgs missing trp out hn h
    unfold getDocsLoop at h
    split at h
    · exact Except.noConfusion h
    · rename_i t heq
      exact ih _ _ _ _ (mergeMissing_nodup _ _ hn) h

/-! ### Concrete scenario inputs -/

/-- Top file of the spec's include scenario: includes local `b.yml` and
cross-repo `{repo: x, file: c.yml}`. -/
def aBody : Value := .map [("header", .map [("version", .int 14),
  ("includes", .list [.str "b.yml",
    .map [("repo", .str "x"), ("file", .str "c.yml")]])]),
  ("machine", .str "ma")]

/-- Local include of the scenario. -/
def bBody : Value := .map [("header", .map [("version", .int 14)]),
  ("machine", .str "mb")]

/-- Cross-repo include of the scenario (lives in repository `x`). -/
def cBody : Value := .map [("header", .map [("version", .int 14)]),
  ("target", .str "tc")]

/-- Filesystem of the include scenario. -/
def fs1 : String → Option Value := fun p =>
  if p = "/repo/a.yml" then some aBody
  else if p = "/repo/b.yml" then some bBody
  else if p = "/rx/c.yml" then some cBody
  else none

/-- Environment of the include scenario (everything validates, version
window [1, 14]). -/
def env1 : Env := ⟨fs1, fun _ => true, 1, 14, "/"⟩

/-- Handler of the include scenario. -/
def h1 : IncludeHandler := ⟨["/repo/a.yml"], "/repo", false⟩

/-- No repository paths known yet. -/
def repos0 : String → Option String := fun _ => none

/-- Repository `x` checked out at `/rx`. -/
def repos1 : String → Option String := fun s => if s = "x" then some "/rx" else none

end Kas

namespace Kas

/-- Top file of the one-level lock-injection scenario. -/
def tBody : Value := .map [("header", .map [("version", .int 14)]),
  ("machine", .str "mt")]

/-- Lock sibling `t.lock.yml`. -/
def lkBody : Value := .map [("header", .map [("version", .int 14)]),
  ("overrides", .map [("repos", .map [("r1", .map [("commit", .str "AAA")])])])]

/-- Lock sibling of the lock sibling, `t.lock.lock.yml`. -/
def lk2Body : Value := .map [("header", .map [("version", .int 14)]),
  ("overrides", .map [("repos", .map [("r1", .map [("commit", .str "BBB")])])])]

/-- Filesystem where even the lock sibling of the lock sibling exists. -/
def fs5 : String → Option Value := fun p =>
  if p = "/r/t.yml" then some tBody
  else if p = "/r/t.lock.yml" then some lkBody
  else if p = "/r/t.lock.lock.yml" then some lk2Body
  else none

/-- Filesystem with only the first-level lock sibling. -/
def fs5b : String → Option Value := fun p =>
  if p = "/r/t.yml" then some tBody
  else if p = "/r/t.lock.yml" then some lkBody
  else none

/-- Handler with locking enabled. -/
def h5 : IncludeHandler := ⟨["/r/t.yml"], "/r", true⟩

/-- Top file whose single include is a cross-repo mapping without a
`file` key. -/
def body7 : Value := .map [("header", .map [("version", .int 14),
  ("includes", .list [.map [("repo", .str "x")]])])]

/-- Environment for the missing-`file`-key scenarios. -/
def env7 : Env := ⟨fun p => if p = "/r/a.yml" then some body7 else none,
  fun _ => true, 1, 14, "/"⟩

/-- Handler for the missing-`file`-key scenarios. -/
def h7 : IncludeHandler := ⟨["/r/a.yml"], "/r", false⟩

/-- First top file of the dedup scenario: references repos `x` (also via
`b.yml`) and `y`. -/
def a8Body : Value := .map [("header", .map [("version", .int 14),
  ("includes", .list [.str "b.yml",
    .map [("repo", .str "x"), ("file", .str "f.yml")],
    .map [("repo", .str "y"), ("file", .str "f.yml")]])])]

/-- Document included by the first top file; references repo `x` again. -/
def b8Body : Value := .map [("header", .map [("version", .int 14),
  ("includes", .list [.map [("repo", .str "x"), ("file", .str "g.yml")]])])]

/-- Second top file of the dedup scenario: references `z` and `x`. -/
def d8Body : Value := .map [("header", .map [("version", .int 14),
  ("includes", .list [.map [("repo", .str "z"), ("file", .str "f.yml")],
    .map [("repo", .str "x"), ("file", .str "f.yml")]])])]

/-- Environment of the dedup scenario. -/
def env8 : Env := ⟨fun p =>
  if p = "/q/a.yml" then some a8Body
  else if p = "/q/b.yml" then some b8Body
  else if p = "/q/d.yml" then some d8Body
  else none, fun _ => true, 1, 14, "/"⟩

/-- Handler of the dedup scenario: two top files. -/
def h8 : IncludeHandler := ⟨["/q/a.yml", "/q/d.yml"], "/q", false⟩

/-! ### Claim theorems: include resolution -/

/-- C1: `get_config` orders documents depth-first, each document after all
of its resolved includes (children before parent): the visited file's
document is always last, and in the scenario `a.yml` → [local `b.yml`,
cross-repo `{repo: x, file: c.yml}`] with `x` unknown the resolver returns
documents `[b, a]` with missing repos `["x"]`, while with
`knownRepos = {x: /rx}` it returns `[b, c, a]` with no missing repos. -/
theorem resolve_depth_first_children_before_parent :
    (∀ (env : Env) (repos : String → Option String) (useLock : Bool)
       (fuel : Nat) (f rp trp : String) (lk ex : Bool) (out : VisitOut),
       visit env repos useLock fuel f rp trp lk ex = .ok out →
       ∃ c : ConfigFile, out.1.getLast? = some c ∧ c.filename = f)
    ∧ getConfigDocs env1 repos0 h1 6 =
        .ok ([⟨"/repo/b.yml", bBody, none, false, false⟩,
              ⟨"/repo/a.yml", aBody, none, false, false⟩],
             [.str "x"], "/repo")
    ∧ getConfigDocs env1 repos1 h1 6 =
        .ok ([⟨"/repo/b.yml", bBody, none, false, false⟩,
              ⟨"/rx/c.yml", cBody, none, false, true⟩,
              ⟨"/repo/a.yml", aBody, none, false, false⟩],
             [], "/repo") :=
  ⟨visit_ok_getLast, rfl, rfl⟩

/-- C1 witness: the general children-before-parent part applied to the
concrete scenario. -/
theorem resolve_depth_first_children_before_parent_witness :
    visit env1 repos0 false 6 "/repo/a.yml" "/repo" "/repo" false false =
      .ok ([⟨"/repo/b.yml", bBody, none, false, false⟩,
            ⟨"/repo/a.yml", aBody, none, false, false⟩], [.str "x"], "/repo")
    ∧ ∃ c : ConfigFile,
        ([(⟨"/repo/b.yml", bBody, none, false, false⟩ : ConfigFile),
          ⟨"/repo/a.yml", aBody, none, false, false⟩].getLast? = some c
         ∧ c.filename = "/repo/a.yml") :=
  ⟨rfl, resolve_depth_first_children_before_parent.1 env1 repos0 false 6
    "/repo/a.yml" "/repo" "/repo" false false
    ([⟨"/repo/b.yml", bBody, none, false, false⟩,
      ⟨"/repo/a.yml", aBody, none, false, false⟩], [.str "x"], "/repo") rfl⟩

/-- C4: a `.yml` top file that does not exist does *not* fail with
`LoadConfigException`: the `except FileNotFoundError` handler reads
`current_config.filename` before `current_config` was ever assigned, so
resolution fails with Python's `UnboundLocalError` instead. -/
theorem missing_config_file_raises_unbound_local :
    get_config ⟨fun _ => none, fun _ => true, 1, 14, "/"⟩ (fun _ => none)
      ⟨["/r/missing.yml"], "/r", false⟩ 3 = .error .unboundLocal := rfl

/-- C5 counterexample: with locking enabled and files `t.yml`,
`t.lock.yml` and `t.lock.lock.yml` all present, the resolver *does* visit
the lock sibling of the injected lock document: `t.lock.lock.yml` appears
in the resolved document list. -/
theorem lock_sibling_of_lock_document_is_visited :
    getConfigDocs ⟨fs5, fun _ => true, 1, 14, "/"⟩ repos0 h5 6 =
      .ok ([⟨"/r/t.lock.lock.yml", lk2Body, none, true, false⟩,
            ⟨"/r/t.lock.yml", lkBody, none, true, false⟩,
            ⟨"/r/t.yml", tBody, none, false, false⟩], [], "/r") := rfl

/-- C5 amended: the resolver does look for a lock sibling of every
injected lock document and would visit it; only when that file is absent
(the usual case) does implicit lock injection stop after one level. -/
theorem lock_sibling_injection_single_level_when_absent :
    getConfigDocs ⟨fs5b, fun _ => true, 1, 14, "/"⟩ repos0 h5 6 =
      .ok ([⟨"/r/t.lock.yml", lkBody, none, true, false⟩,
            ⟨"/r/t.yml", tBody, none, false, false⟩], [], "/r") := rfl

/-- C7 counterexample: a cross-repository include entry without a `file`
key is *not* fatal when its repo key is unknown: resolution succeeds and
merely records `x` as missing. -/
theorem crossrepo_missing_file_key_not_fatal_when_repo_unknown :
    get_config env7 repos0 h7 4 = .ok (body7, [.str "x"]) := rfl

/-- C7 amended: a cross-repository include entry that is missing its
`file` key makes resolution fail with `IncludeException` whenever its
`repo` key is known (mapped to any directory `d`); when the repo is
unknown the entry is only recorded as missing. -/
theorem crossrepo_missing_file_key_fails_when_repo_known (d : String) :
    get_config env7 (fun s => if s = "x" then some d else none) h7 4 =
      .error .includeError := rfl

/-- C8: the missing-repos list of `get_config` never contains a duplicate
key, and keys appear in first-seen traversal order even when one
unresolved key is referenced from several documents and several top files
(scenario: `x` referenced in `b.yml`, `a.yml` and `d.yml`, `y` in
`a.yml`, `z` in `d.yml` gives `[x, y, z]`). -/
theorem missing_repos_deduplicated_first_seen :
    (∀ (env : Env) (repos : String → Option String) (hd : IncludeHandler)
       (fuel : Nat) (out : VisitOut),
       getConfigDocs env repos hd fuel = .ok out → out.2.1.Nodup)
    ∧ getConfigDocs env8 repos0 h8 6 =
        .ok ([⟨"/q/b.yml", b8Body, none, false, false⟩,
              ⟨"/q/a.yml", a8Body, none, false, false⟩,
              ⟨"/q/d.yml", d8Body, none, false, false⟩],
             [.str "x", .str "y", .str "z"], "/q") :=
  ⟨fun env repos hd fuel out h =>
    getDocsLoop_nodup env repos hd.use_lock fuel hd.top_files [] [] hd.top_repo_path
      out List.nodup_nil h, rfl⟩

/-- C8 witness: the general no-duplicates part applied to the concrete
two-top-file scenario. -/
theorem missing_repos_deduplicated_first_seen_witness :
    getConfigDocs env8 repos0 h8 6 =
      .ok ([⟨"/q/b.yml", b8Body, none, false, false⟩,
            ⟨"/q/a.yml", a8Body, none, false, false⟩,
            ⟨"/q/d.yml", d8Body, none, false, false⟩],
           [.str "x", .str "y", .str "z"], "/q")
    ∧ ([PyKey.str "x", .str "y", .str "z"] : List PyKey).Nodup :=
  ⟨rfl, missing_repos_deduplicated_first_seen.1 env8 repos0 h8 6
    ([⟨"/q/b.yml", b8Body, none, false, false⟩,
      ⟨"/q/a.yml", a8Body, none, false, false⟩,
      ⟨"/q/d.yml", d8Body, none, false, false⟩],
     [.str "x", .str "y", .str "z"], "/q") rfl⟩

end Kas

namespace Kas

/-- A document whose header carries an integer version `v` (and which
otherwise parses and validates). -/
def body6 (v : Int) : Value := .map [("header", .map [("version", .int v)])]

/-- Environment with version window `[mn, mx]` and a single document of
version `v`. -/
def env6 (mn mx v : Int) : Env :=
  ⟨fun p => if p = "/r/a.yml" then some (body6 v) else none,
   fun _ => true, mn, mx, "/"⟩

/-- C6: loading a document that parses and validates succeeds exactly when
its `header.version` lies in the inclusive window
`[compatibleMin, compatibleMax]`, and fails with `LoadConfigException`
for every version outside it. -/
theorem version_window_is_inclusive (mn mx v : Int) :
    mkConfigFile (env6 mn mx v) "/r/a.yml" false false =
      (if mn ≤ v ∧ v ≤ mx
       then .ok ⟨"/r/a.yml", body6 v, none, false, false⟩
       else .error .loadConfig) := by
  have base : mkConfigFile (env6 mn mx v) "/r/a.yml" false false =
      (if (decide (v < mn) || decide (v > mx)) = true then .error .loadConfig
       else .ok ⟨"/r/a.yml", body6 v, none, false, false⟩) := rfl
  rw [base]
  split_ifs with hb hin
  · simp only [Bool.or_eq_true, decide_eq_true_eq] at hb
    omega
  · rfl
  · rfl
  · simp only [Bool.or_eq_true, decide_eq_true_eq, not_or, not_lt] at hb
    rename_i hin2
    exact absurd ⟨hb.1, hb.2⟩ hin2

end Kas

namespace Kas

/-! ### Lock reconciliation lemmas -/

/-- A key present in the key list of an association list has an entry. -/
theorem mem_keys_extract {l : List (String × Repo)} {k1 : String}
    (h : k1 ∈ l.map Prod.fst) : ∃ r1, (k1, r1) ∈ l := by
  obtain ⟨⟨a, b⟩, hp, rfl⟩ := List.mem_map.mp h
  exact ⟨b, hp⟩

/-- Filtering preserves key distinctness. -/
theorem filter_keys_nodup {l : List (String × Repo)} {f : String × Repo → Bool}
    (hnd : (l.map Prod.fst).Nodup) : ((l.filter f).map Prod.fst).Nodup :=
  List.Nodup.sublist (List.Sublist.map Prod.fst (List.filter_sublist l)) hnd

/-- A key absent from a list stays absent from any filtering of it. -/
theorem filter_keys_not_mem {l : List (String × Repo)} {k k1 : String}
    (h : k ∉ l.map Prod.fst) :
    k ∉ (l.filter (fun p => p.1 ≠ k1)).map Prod.fst := fun hk =>
  h (List.mem_map.mp hk |> fun ⟨p, hp, he⟩ =>
      List.mem_map.mpr ⟨p, (List.mem_filter.mp hp).1, he⟩)

/-- Filtering a key out removes it from the key list. -/
theorem filter_self_keys_not_mem {l : List (String × Repo)} {k : String} :
    k ∉ (l.filter (fun p => p.1 ≠ k)).map Prod.fst := fun hk => by
  obtain ⟨p, hp, he⟩ := List.mem_map.mp hk
  have := (List.mem_filter.mp hp).2
  simp [he] at this

/-- The inner loop never touches the floating list when the key is not
recorded in it. -/
theorem updateEntry_no_match (ext : Bool) (k : String) :
    ∀ (l : List (String × Repo)), k ∉ l.map Prod.fst →
      ∀ (c : String), updateEntry ext k c l = (c, false, l) := by
  intro l
  induction l with
  | nil => intro _ c; rfl
  | cons p rest ih =>
    intro hk c
    obtain ⟨rk, r⟩ := p
    simp only [List.map_cons, List.mem_cons, not_or] at hk
    simp only [updateEntry]
    rw [if_neg (fun h : rk = k => hk.1 h.symm)]
    simp [ih hk.2 c]

/-- The inner loop on a duplicate-free floating list with the key present:
the pin is rewritten exactly when it differs and the lock document is not
external, `changed` is set accordingly, and the matched repo is removed
from the floating list. -/
theorem updateEntry_match (ext : Bool) (k c : String) :
    ∀ (l : List (String × Repo)) (r : Repo),
      (l.map Prod.fst).Nodup → (k, r) ∈ l →
      updateEntry ext k c l =
        ((if c = r.revision then c else if !ext then r.revision else c),
         (!decide (c = r.revision)) && !ext,
         l.filter (fun p => p.1 ≠ k)) := by
  intro l
  induction l with
  | nil => intro r _ hm; simp at hm
  | cons p rest ih =>
    intro r hnd hm
    obtain ⟨rk, r0⟩ := p
    by_cases hrk : k = rk
    · subst hrk
      simp only [List.map_cons, List.nodup_cons] at hnd
      have hknotrest : k ∉ rest.map Prod.fst := hnd.1
      have hr : r0 = r := by
        rcases List.mem_cons.mp hm with h | h
        · cases h; rfl
        · exact absurd (List.mem_map.mpr ⟨(k, r), h, rfl⟩) hknotrest
      subst hr
      have hfilt : rest.filter (fun p => decide (p.1 ≠ k)) = rest := by
        rw [List.filter_eq_self]
        intro a ha
        have ha2 : a.1 ≠ k := fun hh =>
          hknotrest (List.mem_map.mpr ⟨a, ha, hh⟩)
        simp [ha2]
      cases rest with
      | nil =>
        cases ext <;> by_cases hc : c = r0.revision <;>
          simp [updateEntry, hc, List.filter]
      | cons skipped rest2 =>
        have h2 : k ∉ rest2.map Prod.fst := by
          simp only [List.map_cons, List.mem_cons, not_or] at hknotrest
          exact hknotrest.2
        have hsk : skipped.1 ≠ k := by
          simp only [List.map_cons, List.mem_cons, not_or] at hknotrest
          exact fun h => hknotrest.1 h.symm
        have hfilt2 : rest2.filter (fun p => !decide (p.1 = k)) = rest2 := by
          rw [List.filter_eq_self]
          intro a ha
          have ha2 : a.1 ≠ k := fun hh => h2 (List.mem_map.mpr ⟨a, ha, hh⟩)
          simp [ha2]
        simp only [updateEntry, eq_self_iff_true, if_true]
        rw [updateEntry_no_match ext k rest2 h2]
        cases ext <;> by_cases hc : c = r0.revision <;>
          simp [hc, List.filter, hsk, hfilt2]
    · have hm' : (k, r) ∈ rest := by
        rcases List.mem_cons.mp hm with h | h
        · exact absurd (congrArg Prod.fst h) hrk
        · exact h
      have hnd' : (rest.map Prod.fst).Nodup := by
        simp only [List.map_cons, List.nodup_cons] at hnd
        exact hnd.2
      have hrk2 : rk ≠ k := fun h => hrk h.symm
      simp only [updateEntry]
      rw [if_neg hrk2]
      rw [ih r hnd' hm']
      simp [List.filter, hrk2]

/-- An external lock document is never marked changed (and hence never
re-serialized). -/
theorem update_lockfile_external_unchanged :
    ∀ (entries : List (String × String)) (repos : List (String × Repo)),
      (repos.map Prod.fst).Nodup →
      (update_lockfile true entries repos).2.1 = false := by
  intro entries
  induction entries with
  | nil => intro repos _; rfl
  | cons e rest ih =>
    intro repos hnd
    obtain ⟨k1, c1⟩ := e
    by_cases hk1 : k1 ∈ repos.map Prod.fst
    · obtain ⟨r1, hr1⟩ := mem_keys_extract hk1
      simp only [update_lockfile, updateEntry_match true k1 c1 repos r1 hnd hr1]
      simp [ih _ (filter_keys_nodup hnd)]
    · simp only [update_lockfile, updateEntry_no_match true k1 repos hk1 c1]
      simp [ih repos hnd]

/-- A repo key absent from the floating list can never re-appear in it. -/
theorem update_lockfile_keys_not_mem {k : String} :
    ∀ (external : Bool) (entries : List (String × String))
      (repos : List (String × Repo)),
      (repos.map Prod.fst).Nodup → k ∉ repos.map Prod.fst →
      k ∉ (update_lockfile external entries repos).2.2.map Prod.fst := by
  intro external entries
  induction entries with
  | nil => intro repos _ hk; exact hk
  | cons e rest ih =>
    intro repos hnd hk
    obtain ⟨k1, c1⟩ := e
    by_cases hk1 : k1 ∈ repos.map Prod.fst
    · obtain ⟨r1, hr1⟩ := mem_keys_extract hk1
      simp only [update_lockfile, updateEntry_match external k1 c1 repos r1 hnd hr1]
      exact ih _ (filter_keys_nodup hnd) (filter_keys_not_mem hk)
    · simp only [update_lockfile, updateEntry_no_match external k1 repos hk1 c1]
      exact ih repos hnd hk

/-- C3: during one `_update_lockfile` pass over duplicate-free floating
repos, a still-floating repo `k` recorded in the lock document with a pin
that differs from its current revision is (a) rewritten to the current
revision with the document marked dirty when the lock document is not
external, (b) left at its recorded pin — and nothing marked dirty — when
it is external, and (c) in either case removed from the floating set, so
later lock documents and the new-pin fallback never re-process it. -/
theorem lock_reconciliation_updates_pin_and_removes_repo
    (external : Bool) (k pin : String) (r : Repo) (hne : pin ≠ r.revision) :
    ∀ (pre : List (String × String)) (repos : List (String × Repo))
      (post : List (String × String)),
      (k, r) ∈ repos → (repos.map Prod.fst).Nodup → k ∉ pre.map Prod.fst →
      lookupStr (update_lockfile external (pre ++ (k, pin) :: post) repos).1 k =
          some (if external then pin else r.revision)
      ∧ (external = false →
          (update_lockfile external (pre ++ (k, pin) :: post) repos).2.1 = true)
      ∧ (external = true →
          (update_lockfile external (pre ++ (k, pin) :: post) repos).2.1 = false)
      ∧ k ∉ (update_lockfile external (pre ++ (k, pin) :: post) repos).2.2.map
            Prod.fst := by
  intro pre
  induction pre with
  | nil =>
    intro repos post hmem hnd _
    simp only [List.nil_append, update_lockfile,
      updateEntry_match external k pin repos r hnd hmem]
    refine ⟨?_, ?_, ?_, ?_⟩
    · simp only [lookupStr, if_pos rfl]
      rw [if_neg hne]
      cases external <;> simp
    · intro hx
      subst hx
      simp [hne]
    · intro hx
      subst hx
      simp [update_lockfile_external_unchanged post _ (filter_keys_nodup hnd)]
    · exact update_lockfile_keys_not_mem external post _
        (filter_keys_nodup hnd) filter_self_keys_not_mem
  | cons e pre2 ih =>
    intro repos post hmem hnd hpre
    obtain ⟨k1, c1⟩ := e
    simp only [List.map_cons, List.mem_cons, not_or] at hpre
    by_cases hk1 : k1 ∈ repos.map Prod.fst
    · obtain ⟨r1, hr1⟩ := mem_keys_extract hk1
      have hmem' : (k, r) ∈ repos.filter (fun p => p.1 ≠ k1) :=
        List.mem_filter.mpr ⟨hmem, by simp [hpre.1]⟩
      have ihx := ih (repos.filter (fun p => p.1 ≠ k1)) post hmem'
        (filter_keys_nodup hnd) hpre.2
      simp only [List.cons_append, update_lockfile,
        updateEntry_match external k1 c1 repos r1 hnd hr1]
      refine ⟨?_, ?_, ?_, ?_⟩
      · simp only [lookupStr]
        rw [if_neg (fun h => hpre.1 h.symm)]
        exact ihx.1
      · intro hx
        have h2 := ihx.2.1 hx
        simp only [ne_eq, decide_not] at h2
        simp [h2]
      · intro hx
        subst hx
        have h3 := ihx.2.2.1 rfl
        simp only [ne_eq, decide_not] at h3
        simp [h3]
      · have h4 := ihx.2.2.2
        simp only [ne_eq, decide_not] at h4
        simpa using h4
    · have ihx := ih repos post hmem hnd hpre.2
      simp only [List.cons_append, update_lockfile,
        updateEntry_no_match external k1 repos hk1 c1]
      refine ⟨?_, ?_, ?_, ?_⟩
      · simp only [lookupStr]
        rw [if_neg (fun h => hpre.1 h.symm)]
        exact ihx.1
      · intro hx
        simp [ihx.2.1 hx]
      · intro hx
        subst hx
        simp [ihx.2.2.1 rfl]
      · exact ihx.2.2.2

/-- C3 witness: the spec scenario — lock pins `r1` to `"AAA"`, floating
`r1` has revision `"BBB"`, documents not external: the pin becomes
`"BBB"`, the document is dirty, and `r1` leaves the floating set. -/
theorem lock_reconciliation_updates_pin_and_removes_repo_witness :
    ("AAA" : String) ≠ "BBB"
    ∧ (("r1", Repo.mk "r1" "BBB") ∈ [("r1", Repo.mk "r1" "BBB")])
    ∧ (lookupStr (update_lockfile false [("r1", "AAA")]
          [("r1", Repo.mk "r1" "BBB")]).1 "r1" = some "BBB"
       ∧ (false = false →
           (update_lockfile false [("r1", "AAA")]
             [("r1", Repo.mk "r1" "BBB")]).2.1 = true)
       ∧ (false = true →
           (update_lockfile false [("r1", "AAA")]
             [("r1", Repo.mk "r1" "BBB")]).2.1 = false)
       ∧ "r1" ∉ (update_lockfile false [("r1", "AAA")]
             [("r1", Repo.mk "r1" "BBB")]).2.2.map Prod.fst) :=
  ⟨by decide, by decide,
   lock_reconciliation_updates_pin_and_removes_repo false "r1" "AAA"
     (Repo.mk "r1" "BBB") (by decide) [] [("r1", Repo.mk "r1" "BBB")] []
     (by decide) (by decide) (by decide)⟩

end Kas

namespace Kas

/-! ### Deep-merge idempotence lemmas -/

/-- A well-formed mapping has duplicate-free keys. -/
theorem wf_map_nodup : ∀ (m : List (String × Value)),
    Value.wf (.map m) = true → (m.map Prod.fst).Nodup := by
  intro m
  induction m with
  | nil => intro _; simp
  | cons p rest ih =>
    intro h
    obtain ⟨k, v⟩ := p
    simp only [Value.wf, Bool.and_eq_true, Bool.not_eq_true'] at h
    simp only [List.map_cons, List.nodup_cons]
    constructor
    · intro hk
      obtain ⟨q, hq, he⟩ := List.mem_map.mp hk
      have : rest.any (fun p => decide (p.1 = k)) = true :=
        List.any_eq_true.mpr ⟨q, hq, by simp [he]⟩
      rw [h.1.1] at this
      exact Bool.noConfusion this
    · exact ih h.2

/-- Values stored in a well-formed mapping are themselves well-formed. -/
theorem wf_map_mem : ∀ (m : List (String × Value)) (k : String) (v : Value),
    Value.wf (.map m) = true → (k, v) ∈ m → Value.wf v = true := by
  intro m
  induction m with
  | nil => intro k v _ hm; simp at hm
  | cons p rest ih =>
    intro k v h hm
    obtain ⟨k1, v1⟩ := p
    simp only [Value.wf, Bool.and_eq_true] at h
    rcases List.mem_cons.mp hm with he | hm2
    · cases he; exact h.1.2
    · exact ih k v h.2 hm2

/-- With duplicate-free keys, lookup finds a member's value. -/
theorem lookup_of_mem_nodup : ∀ (m : List (String × Value)) (k : String) (v : Value),
    (m.map Prod.fst).Nodup → (k, v) ∈ m → lookupV m k = some v := by
  intro m
  induction m with
  | nil => intro k v _ hm; simp at hm
  | cons p rest ih =>
    intro k v hnd hm
    obtain ⟨k1, v1⟩ := p
    simp only [List.map_cons, List.nodup_cons] at hnd
    rcases List.mem_cons.mp hm with he | hm2
    · cases he; simp [lookupV]
    · have hne : k1 ≠ k := fun h => by
        subst h
        exact hnd.1 (List.mem_map.mpr ⟨(k1, v), hm2, rfl⟩)
      simp only [lookupV]
      rw [if_neg hne]
      exact ih k v hnd.2 hm2

/-- Re-assigning the value lookup already finds leaves the dictionary
untouched. -/
theorem odSet_self : ∀ (m : List (String × Value)) (k : String) (v : Value),
    lookupV m k = some v → odSet m k v = m := by
  intro m
  induction m with
  | nil => intro k v h; simp [lookupV] at h
  | cons p rest ih =>
    intro k v h
    obtain ⟨k1, v1⟩ := p
    simp only [lookupV] at h
    simp only [odSet]
    by_cases hk : k1 = k
    · rw [if_pos hk] at h ⊢
      injection h with h2
      rw [h2]
    · rw [if_neg hk] at h ⊢
      rw [ih k v h]

/-- The update loop is the identity when every incoming entry is already
present with the same value (and nested self-merges are identities). -/
theorem mergeInto_self_aux : ∀ (u d : List (String × Value)),
    (∀ p ∈ u, lookupV d p.1 = some p.2) →
    (∀ p ∈ u, ∀ mm, p.2 = Value.map mm → mergeMaps mm mm = mm) →
    mergeInto d u = d := by
  intro u
  induction u with
  | nil => intro d _ _; simp [mergeInto]
  | cons p rest ih =>
    intro d hlook hmm
    obtain ⟨k, v⟩ := p
    have hl : lookupV d k = some v := hlook (k, v) (List.mem_cons_self _ _)
    have hrest : mergeInto (odSet d k v) rest = d → mergeInto d ((k, v) :: rest) = d := by
      intro hx
      rw [mergeInto.eq_def]
      cases v with
      | map mm =>
        have hmm2 : mergeMaps mm mm = mm :=
          hmm (k, Value.map mm) (List.mem_cons_self _ _) mm rfl
        simp only [hl, hmm2]
        exact hx
      | str s => simp only [hl]; exact hx
      | int i => simp only [hl]; exact hx
      | bool b => simp only [hl]; exact hx
      | null => simp only [hl]; exact hx
      | list l => simp only [hl]; exact hx
    apply hrest
    rw [odSet_self d k v hl]
    exact ih d (fun q hq => hlook q (List.mem_cons_of_mem _ hq))
      (fun q hq mm2 hq2 => hmm q (List.mem_cons_of_mem _ hq) mm2 hq2)

/-- Merging a well-formed mapping with itself is the identity. -/
theorem mergeMaps_self : ∀ (n : Nat) (m : List (String × Value)), sizeOf m ≤ n →
    Value.wf (.map m) = true → mergeMaps m m = m := by
  intro n
  induction n using Nat.strong_induction_on with
  | _ n ih =>
    intro m hsz hwf
    cases m with
    | nil => simp [mergeMaps, setAll]
    | cons p m2 =>
      have hint : ((p :: m2).any (fun x => (p :: m2).any (fun q => q.1 = x.1))) = true := by
        simp [List.any_cons]
      rw [mergeMaps, if_pos hint]
      apply mergeInto_self_aux
      · intro q hq
        exact lookup_of_mem_nodup _ q.1 q.2 (wf_map_nodup _ hwf) hq
      · intro q hq mm hq2
        obtain ⟨qk, qv⟩ := q
        subst hq2
        have h1 := List.sizeOf_lt_of_mem hq
        simp only [Prod.mk.sizeOf_spec, Value.map.sizeOf_spec] at h1
        have hs : sizeOf mm < n := by omega
        exact ih (sizeOf mm) hs mm le_rfl
          (wf_map_mem _ qk (Value.map mm) hwf hq)

/-- C9: the deep merge is idempotent on one document: folding a
well-formed mapping body with itself gives the body back,
`merge([D, D]) = D.body`. -/
theorem deep_merge_idempotent (m : List (String × Value))
    (h : Value.wf (.map m) = true) :
    mergeAll (Value.map m) [Value.map m] = .ok (Value.map m) := by
  have h2 := mergeMaps_self (sizeOf m) m le_rfl h
  simp [mergeAll, dictMerge, h2]

/-- C9 witness: idempotence evaluated on a concrete two-level document. -/
theorem deep_merge_idempotent_witness :
    Value.wf (.map [("a", .int 1), ("b", .map [("c", .str "x")])]) = true
    ∧ mergeAll (Value.map [("a", .int 1), ("b", .map [("c", .str "x")])])
        [Value.map [("a", .int 1), ("b", .map [("c", .str "x")])]] =
      .ok (Value.map [("a", .int 1), ("b", .map [("c", .str "x")])]) :=
  ⟨by simp [Value.wf],
   deep_merge_idempotent [("a", .int 1), ("b", .map [("c", .str "x")])]
     (by simp [Value.wf])⟩

end Kas

namespace Kas

theorem lookupV_odSet_self : ∀ (d : List (String × Value)) (k : String) (v : Value),
    lookupV (odSet d k v) k = some v := by
  intro d
  induction d with
  | nil => intro k v; simp [odSet, lookupV]
  | cons p rest ih =>
    intro k v
    obtain ⟨k1, v1⟩ := p
    simp only [odSet]
    by_cases hk : k1 = k
    · rw [if_pos hk]
      simp [lookupV, hk]
    · rw [if_neg hk]
      simp only [lookupV]
      rw [if_neg hk]
      exact ih k v

theorem lookupV_odSet_ne : ∀ (d : List (String × Value)) (k1 k : String) (v : Value),
    k1 ≠ k → lookupV (odSet d k1 v) k = lookupV d k := by
  intro d
  induction d with
  | nil => intro k1 k v hne; simp [odSet, lookupV, hne]
  | cons p rest ih =>
    intro k1 k v hne
    obtain ⟨ka, va⟩ := p
    simp only [odSet]
    by_cases hk : ka = k1
    · rw [if_pos hk]
      simp only [lookupV]
      subst hk
      rw [if_neg hne, if_neg hne]
    · rw [if_neg hk]
      simp only [lookupV]
      by_cases hk2 : ka = k
      · rw [if_pos hk2, if_pos hk2]
      · rw [if_neg hk2, if_neg hk2]
        exact ih k1 k v hne

/-- The per-key rule of the merge loop: recursive merge when both sides
are mappings, otherwise the incoming value. -/
def mergeVal (dv : Option Value) (v : Value) : Value :=
  match dv, v with
  | some (.map dd), .map uu => Value.map (mergeMaps dd uu)
  | _, _ => v

theorem mergeInto_cons (d rest : List (String × Value)) (k : String) (v : Value) :
    mergeInto d ((k, v) :: rest) =
      mergeInto (odSet d k (mergeVal (lookupV d k) v)) rest := by
  rw [mergeInto.eq_def]
  rcases hdl : lookupV d k with _ | dv
  · cases v <;> simp [mergeVal, hdl]
  · cases dv <;> cases v <;> simp [mergeVal, hdl]

theorem mergeInto_lookup_not_mem : ∀ (u d : List (String × Value)) (k : String),
    k ∉ u.map Prod.fst → lookupV (mergeInto d u) k = lookupV d k := by
  intro u
  induction u with
  | nil => intro d k _; simp [mergeInto]
  | cons p rest ih =>
    intro d k hk
    obtain ⟨k1, v1⟩ := p
    simp only [List.map_cons, List.mem_cons, not_or] at hk
    rw [mergeInto_cons]
    rw [ih _ k hk.2]
    exact lookupV_odSet_ne d k1 k _ (fun h => hk.1 h.symm)

theorem mergeInto_lookup_mem : ∀ (u d : List (String × Value)) (k : String) (v : Value),
    (u.map Prod.fst).Nodup → lookupV u k = some v →
    lookupV (mergeInto d u) k = some (mergeVal (lookupV d k) v) := by
  intro u
  induction u with
  | nil => intro d k v _ h; simp [lookupV] at h
  | cons p rest ih =>
    intro d k v hnd hu
    obtain ⟨k1, v1⟩ := p
    simp only [List.map_cons, List.nodup_cons] at hnd
    simp only [lookupV] at hu
    by_cases hk : k1 = k
    · rw [if_pos hk] at hu
      injection hu with hv
      subst hv
      subst hk
      rw [mergeInto_cons]
      rw [mergeInto_lookup_not_mem rest _ k1 hnd.1]
      exact lookupV_odSet_self d k1 _
    · rw [if_neg hk] at hu
      rw [mergeInto_cons]
      rw [ih _ k v hnd.2 hu]
      rw [lookupV_odSet_ne d k1 k _ hk]

theorem setAll_lookup_not_mem : ∀ (u d : List (String × Value)) (k : String),
    k ∉ u.map Prod.fst → lookupV (setAll d u) k = lookupV d k := by
  intro u
  induction u with
  | nil => intro d k _; simp [setAll]
  | cons p rest ih =>
    intro d k hk
    obtain ⟨k1, v1⟩ := p
    simp only [List.map_cons, List.mem_cons, not_or] at hk
    simp only [setAll]
    rw [ih _ k hk.2]
    exact lookupV_odSet_ne d k1 k _ (fun h => hk.1 h.symm)

theorem setAll_lookup_mem : ∀ (u d : List (String × Value)) (k : String) (v : Value),
    (u.map Prod.fst).Nodup → lookupV u k = some v →
    lookupV (setAll d u) k = some v := by
  intro u
  induction u with
  | nil => intro d k v _ h; simp [lookupV] at h
  | cons p rest ih =>
    intro d k v hnd hu
    obtain ⟨k1, v1⟩ := p
    simp only [List.map_cons, List.nodup_cons] at hnd
    simp only [lookupV] at hu
    by_cases hk : k1 = k
    · rw [if_pos hk] at hu
      injection hu with hv
      subst hv
      subst hk
      simp only [setAll]
      rw [setAll_lookup_not_mem rest _ k1 hnd.1]
      exact lookupV_odSet_self d k1 _
    · rw [if_neg hk] at hu
      simp only [setAll]
      exact ih _ k v hnd.2 hu

theorem lookupV_none_iff : ∀ (d : List (String × Value)) (k : String),
    lookupV d k = none ↔ k ∉ d.map Prod.fst := by
  intro d
  induction d with
  | nil => intro k; simp [lookupV]
  | cons p rest ih =>
    intro k
    obtain ⟨k1, v1⟩ := p
    simp only [lookupV, List.map_cons, List.mem_cons, not_or]
    by_cases hk : k1 = k
    · rw [if_pos hk]
      simp [hk]
    · rw [if_neg hk]
      rw [ih k]
      constructor
      · intro h2
        exact ⟨fun h => hk h.symm, h2⟩
      · intro h2
        exact h2.2

end Kas

namespace Kas

theorem lookupV_some_mem : ∀ (u : List (String × Value)) (k : String) (v : Value),
    lookupV u k = some v → k ∈ u.map Prod.fst := by
  intro u k v h
  by_contra hn
  rw [(lookupV_none_iff u k).mpr hn] at h
  exact Option.noConfusion h

theorem keys_odSet : ∀ (d : List (String × Value)) (k : String) (v : Value) (k2 : String),
    k2 ∈ (odSet d k v).map Prod.fst ↔ k2 ∈ d.map Prod.fst ∨ k2 = k := by
  intro d
  induction d with
  | nil => intro k v k2; simp [odSet]
  | cons p rest ih =>
    intro k v k2
    obtain ⟨k1, v1⟩ := p
    simp only [odSet]
    by_cases hk : k1 = k
    · rw [if_pos hk]
      subst hk
      simp only [List.map_cons, List.mem_cons]
      tauto
    · rw [if_neg hk]
      simp only [List.map_cons, List.mem_cons, ih k v k2]
      tauto

theorem keys_mergeInto : ∀ (u d : List (String × Value)) (k2 : String),
    k2 ∈ (mergeInto d u).map Prod.fst ↔
      k2 ∈ d.map Prod.fst ∨ k2 ∈ u.map Prod.fst := by
  intro u
  induction u with
  | nil => intro d k2; simp [mergeInto]
  | cons p rest ih =>
    intro d k2
    obtain ⟨k1, v1⟩ := p
    rw [mergeInto_cons, ih, keys_odSet]
    simp only [List.map_cons, List.mem_cons]
    tauto

theorem keys_setAll : ∀ (u d : List (String × Value)) (k2 : String),
    k2 ∈ (setAll d u).map Prod.fst ↔
      k2 ∈ d.map Prod.fst ∨ k2 ∈ u.map Prod.fst := by
  intro u
  induction u with
  | nil => intro d k2; simp [setAll]
  | cons p rest ih =>
    intro d k2
    obtain ⟨k1, v1⟩ := p
    simp only [setAll]
    rw [ih, keys_odSet]
    simp only [List.map_cons, List.mem_cons]
    tauto

theorem keys_mergeMaps : ∀ (d u : List (String × Value)) (k2 : String),
    k2 ∈ (mergeMaps d u).map Prod.fst ↔
      k2 ∈ d.map Prod.fst ∨ k2 ∈ u.map Prod.fst := by
  intro d u k2
  rw [mergeMaps]
  split
  · exact keys_mergeInto u d k2
  · exact keys_setAll u d k2

theorem no_common_key_lookup_none :
    ∀ (d u : List (String × Value)) (k : String),
      (d.any (fun p => u.any (fun q => q.1 = p.1))) = false →
      k ∈ u.map Prod.fst → lookupV d k = none := by
  intro d u k hfalse hku
  rw [lookupV_none_iff]
  intro hkd
  obtain ⟨p, hp, hpk⟩ := List.mem_map.mp hkd
  obtain ⟨q, hq, hqk⟩ := List.mem_map.mp hku
  have : (d.any (fun p => u.any (fun q2 => q2.1 = p.1))) = true :=
    List.any_eq_true.mpr ⟨p, hp, List.any_eq_true.mpr ⟨q, hq, by simp [hqk, hpk]⟩⟩
  rw [hfalse] at this
  exact Bool.noConfusion this

theorem mergeVal_not_both : ∀ (dv : Option Value) (v : Value),
    (∀ dd uu, ¬(dv = some (Value.map dd) ∧ v = Value.map uu)) →
    mergeVal dv v = v := by
  intro dv v h
  rcases dv with _ | dvv
  · cases v <;> rfl
  · cases dvv <;> cases v <;> first | rfl | exact absurd ⟨rfl, rfl⟩ (h _ _)

theorem mergeAll_keys : ∀ (vs : List (List (String × Value)))
    (m0 : List (String × Value)) (res : Value),
    mergeAll (.map m0) (vs.map Value.map) = .ok res →
    ∃ mr, res = Value.map mr ∧
      ∀ k, (k ∈ mr.map Prod.fst ↔
        k ∈ m0.map Prod.fst ∨ ∃ mi ∈ vs, k ∈ mi.map Prod.fst) := by
  intro vs
  induction vs with
  | nil =>
    intro m0 res h
    simp only [List.map_nil, mergeAll] at h
    injection h with h2
    exact ⟨m0, h2.symm, by simp⟩
  | cons mi rest ih =>
    intro m0 res h
    simp only [List.map_cons, mergeAll, dictMerge] at h
    obtain ⟨mr, hres, hiff⟩ := ih (mergeMaps m0 mi) res h
    refine ⟨mr, hres, fun k => ?_⟩
    rw [hiff k, keys_mergeMaps]
    simp only [List.mem_cons]
    constructor
    · rintro ((h0 | hmi) | ⟨mj, hmj, hk⟩)
      · exact Or.inl h0
      · exact Or.inr ⟨mi, Or.inl rfl, hmi⟩
      · exact Or.inr ⟨mj, Or.inr hmj, hk⟩
    · rintro (h0 | ⟨mj, (rfl | hmj), hk⟩)
      · exact Or.inl (Or.inl h0)
      · exact Or.inl (Or.inr hk)
      · exact Or.inr ⟨mj, hmj, hk⟩

theorem merge_step_characterization :
    ∀ (d u : List (String × Value)), (u.map Prod.fst).Nodup →
      ∃ m, dictMerge (.map d) (.map u) = .ok (.map m)
        ∧ (∀ k v, lookupV u k = some v →
            (∀ dd uu, lookupV d k = some (.map dd) → v = .map uu →
                lookupV m k = some (.map (mergeMaps dd uu)))
            ∧ ((∀ dd uu, ¬(lookupV d k = some (.map dd) ∧ v = .map uu)) →
                lookupV m k = some v))
        ∧ (∀ k, lookupV u k = none → lookupV m k = lookupV d k) := by
  intro d u hnd
  refine ⟨mergeMaps d u, rfl, ?_, ?_⟩
  · intro k v hu
    constructor
    · intro dd uu hdl hv
      subst hv
      rw [mergeMaps]
      split
      · rw [mergeInto_lookup_mem u d k _ hnd hu, hdl]
        rfl
      · rename_i hint
        have hfalse : (d.any (fun p => u.any (fun q => q.1 = p.1))) = false :=
          Bool.not_eq_true _ ▸ eq_false_of_ne_true hint
        have := no_common_key_lookup_none d u k hfalse (lookupV_some_mem u k _ hu)
        rw [hdl] at this
        exact Option.noConfusion this
    · intro hnot
      rw [mergeMaps]
      split
      · rw [mergeInto_lookup_mem u d k v hnd hu]
        rw [mergeVal_not_both _ _ hnot]
      · exact setAll_lookup_mem u d k v hnd hu
  · intro k hu
    have hk : k ∉ u.map Prod.fst := (lookupV_none_iff u k).mp hu
    rw [mergeMaps]
    split
    · exact mergeInto_lookup_not_mem u d k hk
    · exact setAll_lookup_not_mem u d k hk

end Kas

namespace Kas

/-- C2: one merge step obeys the per-key rule — a key on both sides with
mapping values is merged recursively by the same rule, any other incoming
key overwrites, keys absent from the incoming body keep their accumulator
value — and folding a whole ordered document sequence yields exactly the
union of all key sets. -/
theorem deep_merge_step_and_key_union :
    (∀ (d u : List (String × Value)), (u.map Prod.fst).Nodup →
      ∃ m, dictMerge (.map d) (.map u) = .ok (.map m)
        ∧ (∀ k v, lookupV u k = some v →
            (∀ dd uu, lookupV d k = some (.map dd) → v = .map uu →
                lookupV m k = some (.map (mergeMaps dd uu)))
            ∧ ((∀ dd uu, ¬(lookupV d k = some (.map dd) ∧ v = .map uu)) →
                lookupV m k = some v))
        ∧ (∀ k, lookupV u k = none → lookupV m k = lookupV d k))
    ∧ (∀ (vs : List (List (String × Value))) (m0 : List (String × Value))
        (res : Value),
        mergeAll (.map m0) (vs.map Value.map) = .ok res →
        ∃ mr, res = Value.map mr ∧
          ∀ k, (k ∈ mr.map Prod.fst ↔
            k ∈ m0.map Prod.fst ∨ ∃ mi ∈ vs, k ∈ mi.map Prod.fst)) :=
  ⟨merge_step_characterization, mergeAll_keys⟩

/-- C2 witness: the per-key rule applied to concrete mappings and the key
union of a concrete two-document fold. -/
theorem deep_merge_step_and_key_union_witness :
    (([("n", Value.map [("y", Value.int 2)]),
       ("b", Value.str "s")].map Prod.fst).Nodup)
    ∧ (∃ m, dictMerge
          (.map [("a", Value.int 1), ("n", Value.map [("x", Value.int 1)])])
          (.map [("n", Value.map [("y", Value.int 2)]), ("b", Value.str "s")]) =
            .ok (.map m)
        ∧ (∀ k v, lookupV [("n", Value.map [("y", Value.int 2)]),
              ("b", Value.str "s")] k = some v →
            (∀ dd uu, lookupV [("a", Value.int 1),
                ("n", Value.map [("x", Value.int 1)])] k = some (.map dd) →
                v = .map uu →
                lookupV m k = some (.map (mergeMaps dd uu)))
            ∧ ((∀ dd uu, ¬(lookupV [("a", Value.int 1),
                  ("n", Value.map [("x", Value.int 1)])] k = some (.map dd)
                  ∧ v = .map uu)) →
                lookupV m k = some v))
        ∧ (∀ k, lookupV [("n", Value.map [("y", Value.int 2)]),
              ("b", Value.str "s")] k = none →
            lookupV m k = lookupV [("a", Value.int 1),
              ("n", Value.map [("x", Value.int 1)])] k))
    ∧ (mergeAll (Value.map [("a", Value.int 1)])
          ([[("b", Value.int 2)]].map Value.map) =
        .ok (Value.map [("a", Value.int 1), ("b", Value.int 2)]))
    ∧ (∃ mr, Value.map [("a", Value.int 1), ("b", Value.int 2)] = Value.map mr ∧
        ∀ k, (k ∈ mr.map Prod.fst ↔
          k ∈ [("a", Value.int 1)].map Prod.fst ∨
          ∃ mi ∈ [[("b", Value.int 2)]], k ∈ mi.map Prod.fst)) :=
  ⟨by decide,
   deep_merge_step_and_key_union.1
     [("a", Value.int 1), ("n", Value.map [("x", Value.int 1)])]
     [("n", Value.map [("y", Value.int 2)]), ("b", Value.str "s")] (by decide),
   by simp [mergeAll, dictMerge, mergeMaps, setAll, odSet],
   deep_merge_step_and_key_union.2 [[("b", Value.int 2)]] [("a", Value.int 1)]
     (Value.map [("a", Value.int 1), ("b", Value.int 2)])
     (by simp [mergeAll, dictMerge, mergeMaps, setAll, odSet])⟩

end Kas

namespace Kas

theorem write_data_ne (h : Heap) (fresh : Nat) (x : List (String × HVal))
    (a : Nat) (ha : a ≠ fresh) : (h.write fresh x).data a = h.data a := by
  simp [Heap.write, ha]

theorem write_next (h : Heap) (fresh : Nat) (x : List (String × HVal)) :
    (h.write fresh x).next = h.next := rfl

theorem hSetEntries_pres : ∀ (l : List (String × HVal)) (h : Heap) (fresh : Nat),
    (∀ a, a ≠ fresh → (hSetEntries fresh h l).data a = h.data a)
    ∧ (hSetEntries fresh h l).next = h.next := by
  intro l
  induction l with
  | nil => intro h fresh; exact ⟨fun a _ => rfl, rfl⟩
  | cons p rest ih =>
    intro h fresh
    obtain ⟨k, v⟩ := p
    simp only [hSetEntries]
    constructor
    · intro a ha
      rw [(ih _ fresh).1 a ha, write_data_ne h fresh _ a ha]
    · rw [(ih _ fresh).2, write_next]

theorem hMergeEntries_pres : ∀ (l : List (String × HVal))
    (recur : Heap → Nat → Nat → Heap × Nat),
    (∀ h2 d u a, a < h2.next → (recur h2 d u).1.data a = h2.data a) →
    (∀ h2 d u, h2.next ≤ (recur h2 d u).1.next) →
    ∀ (h : Heap) (fresh : Nat), fresh < h.next →
      (∀ a, a < h.next → a ≠ fresh →
        (hMergeEntries recur fresh h l).data a = h.data a)
      ∧ h.next ≤ (hMergeEntries recur fresh h l).next := by
  intro l
  induction l with
  | nil => intro recur _ _ h fresh _; exact ⟨fun a _ _ => rfl, le_refl _⟩
  | cons p rest ih =>
    intro recur hframe hmono h fresh hfr
    obtain ⟨k, v⟩ := p
    simp only [hMergeEntries]
    rcases hl : lookupH (h.data fresh) k with _ | hv
    · have hnx : (h.write fresh (odSetH (h.data fresh) k v)).next = h.next :=
        write_next _ _ _
      have hrec := ih recur hframe hmono (h.write fresh (odSetH (h.data fresh) k v))
        fresh (by rw [hnx]; exact hfr)
      cases v <;>
        exact ⟨fun a ha hane => by
            rw [hrec.1 a (by rw [hnx]; exact ha) hane,
               write_data_ne h fresh _ a hane],
          by rw [← hnx]; exact hrec.2⟩
    · cases hv with
      | prim w =>
        have hnx : (h.write fresh (odSetH (h.data fresh) k v)).next = h.next :=
          write_next _ _ _
        have hrec := ih recur hframe hmono
          (h.write fresh (odSetH (h.data fresh) k v)) fresh
          (by rw [hnx]; exact hfr)
        cases v <;>
          exact ⟨fun a ha hane => by
              rw [hrec.1 a (by rw [hnx]; exact ha) hane,
                 write_data_ne h fresh _ a hane],
            by rw [← hnx]; exact hrec.2⟩
      | ref da =>
        cases v with
        | prim w2 =>
          have hnx : (h.write fresh (odSetH (h.data fresh) k (.prim w2))).next = h.next :=
            write_next _ _ _
          have hrec := ih recur hframe hmono
            (h.write fresh (odSetH (h.data fresh) k (.prim w2))) fresh
            (by rw [hnx]; exact hfr)
          exact ⟨fun a ha hane => by
              rw [hrec.1 a (by rw [hnx]; exact ha) hane,
                 write_data_ne h fresh _ a hane],
            by rw [← hnx]; exact hrec.2⟩
        | ref ua =>
          have hmono1 : h.next ≤ (recur h da ua).1.next := hmono h da ua
          have hw : ((recur h da ua).1.write fresh
              (odSetH ((recur h da ua).1.data fresh) k (.ref (recur h da ua).2))).next =
              (recur h da ua).1.next := write_next _ _ _
          have hrec := ih recur hframe hmono
            ((recur h da ua).1.write fresh
              (odSetH ((recur h da ua).1.data fresh) k (.ref (recur h da ua).2)))
            fresh (by rw [hw]; exact lt_of_lt_of_le hfr hmono1)
          constructor
          · intro a ha hane
            rw [hrec.1 a (by rw [hw]; exact lt_of_lt_of_le ha hmono1) hane]
            rw [write_data_ne _ fresh _ a hane]
            exact hframe h da ua a ha
          · calc h.next ≤ (recur h da ua).1.next := hmono1
              _ = _ := hw.symm
              _ ≤ _ := hrec.2

end Kas

namespace Kas

/-- The heap object allocated by `dest = OrderedDict(dest)`. -/
def allocCopy (h : Heap) (dest : Nat) : Heap :=
  Heap.mk (fun x => if x = h.next then h.data dest else h.data x) (h.next + 1)

theorem allocCopy_data_ne (h : Heap) (dest a : Nat) (ha : a ≠ h.next) :
    (allocCopy h dest).data a = h.data a := by
  simp [allocCopy, ha]

/-- Frame property of the heap merge: addresses below the allocation
frontier keep their contents, and the frontier never moves down. -/
theorem hMerge_frame : ∀ (fuel : Nat) (h : Heap) (dest upd : Nat),
    (∀ a, a < h.next → (hMerge fuel h dest upd).1.data a = h.data a)
    ∧ h.next ≤ (hMerge fuel h dest upd).1.next := by
  intro fuel
  induction fuel with
  | zero => intro h dest upd; exact ⟨fun a _ => rfl, le_refl _⟩
  | succ fuel ih =>
    intro h dest upd
    have hframe : ∀ h2 d u a, a < h2.next → (hMerge fuel h2 d u).1.data a = h2.data a :=
      fun h2 d u a ha => (ih h2 d u).1 a ha
    have hmono : ∀ h2 d u, h2.next ≤ (hMerge fuel h2 d u).1.next :=
      fun h2 d u => (ih h2 d u).2
    have hred : hMerge (fuel + 1) h dest upd =
        (if (((allocCopy h dest).data h.next).any
              (fun p => ((allocCopy h dest).data upd).any (fun q => q.1 = p.1))) = true
         then hMergeEntries (hMerge fuel) h.next (allocCopy h dest)
                ((allocCopy h dest).data upd)
         else hSetEntries h.next (allocCopy h dest) ((allocCopy h dest).data upd),
         h.next) := rfl
    rw [hred]
    have hnx : (allocCopy h dest).next = h.next + 1 := rfl
    by_cases hc : (((allocCopy h dest).data h.next).any
        (fun p => ((allocCopy h dest).data upd).any (fun q => q.1 = p.1))) = true
    · rw [if_pos hc]
      have hx := hMergeEntries_pres ((allocCopy h dest).data upd) (hMerge fuel)
        hframe hmono (allocCopy h dest) h.next (by rw [hnx]; exact Nat.lt_succ_self _)
      constructor
      · intro a ha
        have hane : a ≠ h.next := Nat.ne_of_lt ha
        rw [hx.1 a (by rw [hnx]; exact Nat.lt_succ_of_lt ha) hane]
        exact allocCopy_data_ne h dest a hane
      · have := hx.2
        rw [hnx] at this
        exact le_trans (Nat.le_succ _) this
    · rw [if_neg hc]
      have hx := hSetEntries_pres ((allocCopy h dest).data upd) (allocCopy h dest) h.next
      constructor
      · intro a ha
        have hane : a ≠ h.next := Nat.ne_of_lt ha
        rw [hx.1 a hane]
        exact allocCopy_data_ne h dest a hane
      · rw [hx.2, hnx]
        exact Nat.le_succ _

theorem hMerge_returns_fresh (fuel : Nat) (h : Heap) (dest upd : Nat) :
    (hMerge (fuel + 1) h dest upd).2 = h.next := by
  simp only [hMerge, Heap.alloc]

theorem mapEntries_congr : ∀ (l : List (String × HVal)) (f g : HVal → Option Value),
    (∀ p ∈ l, f p.2 = g p.2) → mapEntries f l = mapEntries g l := by
  intro l
  induction l with
  | nil => intro f g _; rfl
  | cons p rest ih =>
    intro f g hfg
    obtain ⟨k, v⟩ := p
    simp only [mapEntries]
    rw [hfg (k, v) (List.mem_cons_self _ _),
        ih f g (fun q hq => hfg q (List.mem_cons_of_mem _ hq))]

theorem allEntries_true : ∀ (l : List (String × HVal)) (f : HVal → Bool),
    allEntries f l = true → ∀ p ∈ l, f p.2 = true := by
  intro l
  induction l with
  | nil => intro f _ p hp; simp at hp
  | cons q rest ih =>
    intro f hall p hp
    obtain ⟨k, v⟩ := q
    simp only [allEntries, Bool.and_eq_true] at hall
    rcases List.mem_cons.mp hp with he | hm
    · subst he; exact hall.1
    · exact ih f hall.2 p hm

theorem readback_agree : ∀ (fuel2 : Nat) (h h2 : Heap) (n : Nat),
    (∀ a, a < n → h2.data a = h.data a) →
    ∀ v, hvalBounded h n fuel2 v = true → readback h2 fuel2 v = readback h fuel2 v := by
  intro fuel2
  induction fuel2 with
  | zero => intro h h2 n _ v _; rfl
  | succ fuel ih =>
    intro h h2 n hagree v hb
    cases v with
    | prim w => rfl
    | ref a =>
      simp only [hvalBounded, Bool.and_eq_true, decide_eq_true_eq] at hb
      obtain ⟨ha, hball⟩ := hb
      simp only [readback]
      rw [hagree a ha]
      rw [mapEntries_congr (h.data a) (readback h2 fuel) (readback h fuel)
        (fun p hp => ih h h2 n hagree p.2 (allEntries_true _ _ hball p hp))]

end Kas

namespace Kas

/-- A concrete heap with two dict objects (addresses 0 and 1). -/
def h10 : Heap := Heap.mk
  (fun a => if a = 0 then [("x", HVal.prim (Value.int 1))]
            else if a = 1 then [("x", HVal.prim (Value.int 2))] else []) 2

/-- C10: the merge never mutates its inputs: every address that existed
before a (heap-level) `_internal_dict_merge` call holds exactly its old
contents afterwards, the returned top-level mapping is a freshly allocated
object (`dest = OrderedDict(dest)` copies before any assignment, at every
recursion level), and reading back any pre-existing value tree is
unchanged. -/
theorem heap_merge_never_mutates_inputs :
    (∀ (fuel : Nat) (h : Heap) (dest upd a : Nat), a < h.next →
        (hMerge fuel h dest upd).1.data a = h.data a
        ∧ h.next ≤ (hMerge fuel h dest upd).1.next)
    ∧ (∀ (fuel : Nat) (h : Heap) (dest upd : Nat),
        (hMerge (fuel + 1) h dest upd).2 = h.next)
    ∧ (∀ (fuel fuel2 : Nat) (h : Heap) (dest upd : Nat) (v : HVal),
        hvalBounded h h.next fuel2 v = true →
        readback (hMerge fuel h dest upd).1 fuel2 v = readback h fuel2 v) :=
  ⟨fun fuel h dest upd a ha =>
     ⟨(hMerge_frame fuel h dest upd).1 a ha, (hMerge_frame fuel h dest upd).2⟩,
   hMerge_returns_fresh,
   fun fuel fuel2 h dest upd v hb =>
     readback_agree fuel2 h (hMerge fuel h dest upd).1 h.next
       (fun a ha => (hMerge_frame fuel h dest upd).1 a ha) v hb⟩

/-- C10 witness: the frame property evaluated on a concrete two-object
heap. -/
theorem heap_merge_never_mutates_inputs_witness :
    ((0 : Nat) < h10.next)
    ∧ ((hMerge 3 h10 0 1).1.data 0 = h10.data 0
       ∧ h10.next ≤ (hMerge 3 h10 0 1).1.next)
    ∧ (hMerge (2 + 1) h10 0 1).2 = h10.next
    ∧ (hvalBounded h10 h10.next 2 (HVal.ref 0) = true)
    ∧ readback (hMerge 3 h10 0 1).1 2 (HVal.ref 0) = readback h10 2 (HVal.ref 0) :=
  ⟨by decide,
   heap_merge_never_mutates_inputs.1 3 h10 0 1 0 (by decide),
   heap_merge_never_mutates_inputs.2.1 2 h10 0 1,
   by decide,
   heap_merge_never_mutates_inputs.2.2 3 2 h10 0 1 (HVal.ref 0) (by decide)⟩

end Kas
